import Mathlib

/-!
Verification of the tag-substitution loader of webpack-html-file-injector.

The development shallowly embeds `src/loader.ts`: strings are lists of
characters, the file system and the external file-enumeration call are
abstracted into an `Env` record, and the single regular expression of
`parseAndReplace` is embedded as an executable matcher that follows the
backtracking behaviour of the JavaScript engine on the concrete pattern.
-/

deriving instance DecidableEq for Except

/-- JavaScript strings are modelled as lists of characters. -/
abbrev Str := List Char

/-- Shorthand turning a Lean string literal into the model type. -/
def S (s : String) : Str := s.data

/-- The single-quote character, used as one of the two recognized quote
characters of the tag pattern. -/
def sqc : Char := Char.ofNat 39

/-- Characters matched by the `[\t ]` class of the leading-whitespace group. -/
def isTabSpace (c : Char) : Bool := c == '\t' || c == ' '

/-- ECMAScript LineTerminator characters (after which `^` matches in
multiline mode). -/
def isLineTerm (c : Char) : Bool :=
  c == '\n' || c == '\r' || c == Char.ofNat 0x2028 || c == Char.ofNat 0x2029

/-- Characters matched by the ECMAScript `\s` class. -/
def isJsSpace (c : Char) : Bool :=
  c == ' ' || c == '\t' || c == '\n' || c == '\r' || c == '\x0b' || c == '\x0c' ||
  c == Char.ofNat 0xa0 || c == Char.ofNat 0x1680 ||
  (Char.ofNat 0x2000 ≤ c && c ≤ Char.ofNat 0x200a) ||
  c == Char.ofNat 0x2028 || c == Char.ofNat 0x2029 ||
  c == Char.ofNat 0x202f || c == Char.ofNat 0x205f ||
  c == Char.ofNat 0x3000 || c == Char.ofNat 0xfeff

/-- Lowercase ASCII letters, the `[a-z]` class. -/
def isLowerAZ (c : Char) : Bool := 'a' ≤ c && c ≤ 'z'

/-- `String.prototype.trim`: strip `\s` characters from both ends. -/
def jsTrim (s : Str) : Str :=
  ((s.dropWhile isJsSpace).reverse.dropWhile isJsSpace).reverse

/-- `String.prototype.split` on a single separator character: always returns
at least one (possibly empty) field. -/
def splitOnChar (sep : Char) : Str → List Str
  | [] => [[]]
  | c :: t =>
    if c == sep then [] :: splitOnChar sep t
    else
      match splitOnChar sep t with
      | [] => [[c]]
      | h :: r => (c :: h) :: r

/-- Decompose a string into its lines; every LineTerminator character ends a
line, and the (possibly empty) text after the last terminator is a line. -/
def linesOf : Str → List Str
  | [] => [[]]
  | c :: t =>
    if isLineTerm c then [] :: linesOf t
    else
      match linesOf t with
      | [] => [[c]]
      | h :: r => (c :: h) :: r

/-- Helper of `indentLines`: re-emit the string, inserting `ws` after every
LineTerminator character. -/
def indentGo (ws : Str) : Str → Str
  | [] => []
  | c :: t => if isLineTerm c then c :: (ws ++ indentGo ws t) else c :: indentGo ws t

/-- `replacement.replace(/^/gm, whitespace)`: insert `ws` at the start of the
string and after every LineTerminator character. -/
def indentLines (ws : Str) (s : Str) : Str := ws ++ indentGo ws s

/-- `path.dirname` (POSIX rules of Node.js). -/
def dirname (p : Str) : Str :=
  let r := p.reverse.dropWhile (· == '/')
  let r2 := r.dropWhile (· != '/')
  let r3 := r2.dropWhile (· == '/')
  if r3.isEmpty then
    (match p with
     | '/' :: _ => ['/']
     | _ => ['.'])
  else r3.reverse

/-- `path.extname` (POSIX rules of Node.js): the suffix of the basename from
its last dot, the dot included; a dot in first position of the basename does
not count. -/
def extname (p : Str) : Str :=
  let base := (p.reverse.takeWhile (· != '/')).reverse
  match base with
  | [] => []
  | _ :: rest =>
    let tailRev := rest.reverse
    let extRev := tailRev.takeWhile (· != '.')
    if extRev.length = rest.length then []
    else '.' :: extRev.reverse

/-- Is the path absolute (POSIX)? -/
def isAbs (p : Str) : Bool :=
  match p with
  | c :: _ => c == '/'
  | [] => false

/-- Normalization core of `path.resolve`: process `.`/`..`/empty segments of
an absolute path. -/
def normSegs : List Str → List Str → List Str
  | [], acc => acc.reverse
  | s :: rest, acc =>
    if s.isEmpty || s = S "." then normSegs rest acc
    else if s = S ".." then normSegs rest acc.tail
    else normSegs rest (s :: acc)

/-- Join path segments with slashes under a leading root slash. -/
def joinSegsAbs (segs : List Str) : Str :=
  match segs with
  | [] => ['/']
  | _ => segs.foldl (fun acc s => acc ++ '/' :: s) []

/-- `path.resolve(a, b)` of Node.js (POSIX), with the process working
directory made explicit.  Note that `a` is used as-is: a file path in `a` is
treated like a directory, exactly as `path.resolve` does. -/
def pathResolve (cwd a b : Str) : Str :=
  let joined :=
    if isAbs b then b
    else if isAbs a then a ++ '/' :: b
    else cwd ++ '/' :: a ++ '/' :: b
  joinSegsAbs (normSegs (splitOnChar '/' joined) [])

/-- The anchored extension test `/\.([a-z]{3,4})$/` of `wrapInCommentSyntax`:
some 3 or 4 lowercase letters preceded by a dot, at the very end of the
path; returns the captured extension. -/
def extMatch (resourcePath : Str) : Option Str :=
  let r := resourcePath.reverse
  let l4 := r.take 4
  let l3 := r.take 3
  if l4.length = 4 && l4.all isLowerAZ && r.get? 4 == some '.' then some l4.reverse
  else if l3.length = 3 && l3.all isLowerAZ && r.get? 3 == some '.' then some l3.reverse
  else none

/-- `wrapInCommentSyntax(str, resourcePath)` of `loader.ts`: wrap in an HTML
comment when the extension captured by `/\.([a-z]{3,4})$/` is `html`, in a
block comment when it is any other 3-4 lowercase-letter extension, and throw
when the path has no such extension. -/
def wrapInCommentSyntax (str resourcePath : Str) : Except Str Str :=
  match extMatch resourcePath with
  | some ext =>
    if ext = S "html" then .ok (S "<!-- " ++ str ++ S " -->")
    else .ok (S "/* " ++ str ++ S " */")
  | none => .error (S "Not a valid file path: " ++ resourcePath)

/-- One located occurrence of the tag pattern
`/(^[\t ]*)?<webpack-([a-z]+) src=("|')([^\x03]+)\3\s*\/?>/mg`.
`ws` is the captured leading whitespace (empty when the group did not
participate or captured nothing), `tag` the whole matched text, and
`tagLen` its length (the scan resumes after it). -/
structure TagMatch where
  ws : Str
  verb : Str
  quote : Char
  src : Str
  tag : Str
  tagLen : Nat
  deriving Repr, DecidableEq

/-- Greedy-with-backtracking search for the largest offset `d` in `[1, k]`
satisfying `f`, exactly like the engine shrinking a greedy `+`. -/
def downSearch (f : Nat → Bool) : Nat → Option Nat
  | 0 => none
  | k + 1 => if f (k + 1) then some (k + 1) else downSearch f k

/-- Match the closing part `\s*\/?>` of the tag pattern at position `p`;
returns the position one past the `>` on success.  (`\s*` never needs to
backtrack here because no `\s` character is `/` or `>`.) -/
def closeEnd (s : Str) (p : Nat) : Option Nat :=
  let w := ((s.drop p).takeWhile isJsSpace).length
  let q := p + w
  match s.get? q with
  | some '/' =>
    (match s.get? (q + 1) with
     | some '>' => some (q + 2)
     | _ => none)
  | some '>' => some (q + 1)
  | _ => none

/-- Attempt the tag pattern at position `i` of `s`; `lineStart` says whether
`^` matches at `i` (for the optional leading-whitespace group).  The greedy
`[^\x03]+` of the source argument backtracks to the largest closing-quote
candidate whose tail also matches, exactly like the JavaScript engine. -/
def tryMatchAt (s : Str) (i : Nat) (lineStart : Bool) : Option TagMatch :=
  let wsLen := if lineStart then ((s.drop i).takeWhile isTabSpace).length else 0
  let p := i + wsLen
  if (S "<webpack-").isPrefixOf (s.drop p) then
    let vStart := p + 9
    let vLen := ((s.drop vStart).takeWhile isLowerAZ).length
    if vLen = 0 then none
    else if (S " src=").isPrefixOf (s.drop (vStart + vLen)) then
      match s.get? (vStart + vLen + 5) with
      | none => none
      | some q =>
        if q == '"' || q == sqc then
          let srcStart := vStart + vLen + 6
          let bound := ((s.drop srcStart).takeWhile (fun c => c != '\x03')).length
          match downSearch
              (fun d => (s.get? (srcStart + d) == some q)
                        && (closeEnd s (srcStart + d + 1)).isSome) bound with
          | none => none
          | some d =>
            match closeEnd s (srcStart + d + 1) with
            | some e =>
              some { ws := (s.drop i).take wsLen
                     verb := (s.drop vStart).take vLen
                     quote := q
                     src := (s.drop srcStart).take d
                     tag := (s.drop i).take (e - i)
                     tagLen := e - i }
            | none => none
        else none
    else none
  else none

/-- Does `^` (multiline) match at position `i` of `s`? -/
def lineStartAt (s : Str) (i : Nat) : Bool :=
  i == 0 ||
  (match s.get? (i - 1) with
   | some c => isLineTerm c
   | none => false)

/-- The scan loop of `contents.matchAll(regexp)`: try every position from
left to right, resume after each match (advancing at least one position, as
the engine does for an empty match). -/
def matchAllAux (s : Str) : Nat → Nat → List TagMatch
  | 0, _ => []
  | fuel + 1, i =>
    if s.length ≤ i then []
    else
      match tryMatchAt s i (lineStartAt s i) with
      | some m => m :: matchAllAux s fuel (i + max m.tagLen 1)
      | none => matchAllAux s fuel (i + 1)

/-- `Array.from(contents.matchAll(regexp))` for the tag pattern of
`parseAndReplace`: all non-overlapping matches, leftmost first. -/
def matchAll (s : Str) : List TagMatch := matchAllAux s (s.length + 1) 0

/-- First occurrence of `tag` in `c` (`String.prototype.indexOf`, position
form); `none` when `tag` does not occur. -/
def indexOfFirst (c tag : Str) : Option Nat :=
  if tag.isPrefixOf c then some 0
  else
    match c with
    | [] => none
    | _ :: c2 => (indexOfFirst c2 tag).map Nat.succ

/-- `contents.indexOf(wholeTag)`: `-1` when absent. -/
def jsIndexOf (c tag : Str) : Int :=
  match indexOfFirst c tag with
  | some p => Int.ofNat p
  | none => -1

/-- Clamp a possibly negative `String.prototype.slice` index into `[0, n]`. -/
def jsSliceIdx (n : Nat) (a : Int) : Nat :=
  if a < 0 then (Int.toNat ((n : Int) + a)) else min a.toNat n

/-- `c.slice(a)` of JavaScript. -/
def jsSliceFrom (c : Str) (a : Int) : Str := c.drop (jsSliceIdx c.length a)

/-- `c.slice(a, b)` of JavaScript. -/
def jsSliceTwo (c : Str) (a b : Int) : Str :=
  (c.take (jsSliceIdx c.length b)).drop (jsSliceIdx c.length a)

/-- The splice of `parseAndReplace`:
`contents.slice(0, start) + replacement + contents.slice(start + wholeTag.length)`
with `start = contents.indexOf(wholeTag)`, kept faithful to the JavaScript
negative-index semantics when the tag does not occur. -/
def spliceJs (c tag repl : Str) : Str :=
  let start := jsIndexOf c tag
  jsSliceTwo c 0 start ++ repl ++ jsSliceFrom c (start + (tag.length : Int))

/-- The external world of the loader: the read-only file system
(`fs.readFileSync` keyed by resolved absolute path), the external
file-enumeration call (`cp.execFileSync` of `find`, returning raw stdout or
failing), and the working directory of the process. -/
structure Env where
  fs : Str → Option Str
  findFiles : Str → Str → Except Str Str
  cwd : Str

/-- `getFileContents(getFrom, insertInto)` of `loader.ts`: resolve the path
with `path.resolve(insertInto, getFrom)` (the resource path itself, not its
directory, is the base), read and trim the file, and record it as a
dependency; any failure is rethrown as a single error. -/
def getFileContents (env : Env) (getFrom insertInto : Str) : Except Str (Str × List Str) :=
  let fullpath := pathResolve env.cwd insertInto getFrom
  match env.fs fullpath with
  | some contents => .ok (jsTrim contents, [fullpath])
  | none =>
    .error (S "Failed to get contents from " ++ getFrom ++
            S " (relative to " ++ insertInto ++ S ")")

/-- `findMatchingFiles(pattern, relativeTo)` of `loader.ts`: run the external
enumeration and split its stdout on newlines (a split that never yields an
empty array); wrap an enumeration failure in a new error. -/
def findMatchingFiles (env : Env) (patt relativeTo : Str) : Except Str (List Str) :=
  match env.findFiles patt relativeTo with
  | .ok out => .ok (splitOnChar '\n' out)
  | .error _ =>
    .error (S "Failed fo find files matching " ++ patt ++
            S " relative to " ++ relativeTo)

/-- The keyword chosen by `addImportStatements`:
`['js', 'ts', 'tsx', 'jsx'].includes(path.extname(resourcePath))`
(note `path.extname` keeps the leading dot). -/
def importKeywordFor (resourcePath : Str) : Str :=
  if [S "js", S "ts", S "tsx", S "jsx"].contains (extname resourcePath)
  then S "import" else S "@import"

/-- One emitted line of `addImportStatements`. -/
def importLine (imprt p : Str) : Str :=
  imprt ++ S " \"" ++ p ++ S "\";" ++ ['\n']

/-- `addImportStatements(pattern, resourcePath)` of `loader.ts`: enumerate
files matching the pattern relative to `path.dirname(resourcePath)`, fail if
the array is empty, and otherwise emit one import line per entry. -/
def addImportStatements (env : Env) (patt resourcePath : Str) : Except Str (Str × List Str) :=
  let relativeTo := dirname resourcePath
  match findMatchingFiles env patt relativeTo with
  | .error e => .error e
  | .ok files =>
    if files.length = 0 then
      .error (S "No files matched pattern " ++ patt ++ S " relative to " ++ relativeTo)
    else
      let imprt := importKeywordFor resourcePath
      .ok ((files.map (importLine imprt)).flatten, [])

/-- `getInjectorFunc(func)` of `loader.ts`: the verb registry. -/
def getInjectorFunc (verb : Str) :
    Except Str (Env → Str → Str → Except Str (Str × List Str)) :=
  if verb = S "inject" then .ok (fun env a b => getFileContents env a b)
  else if verb = S "import" then .ok (fun env a b => addImportStatements env a b)
  else .error (S "No such inject function found: " ++ verb)

/-- The body of the `try` block for one match: look the verb up, invoke the
injector with `(src, resourcePath)`, then recursively re-run the whole
substitution pass (`recur`) on the replacement with the tag's own `src` as
the new resource path, accumulating the registered dependencies. -/
def tagAttemptG (env : Env) (recur : Str → Str → Except Str (Str × List Str))
    (resourcePath : Str) (m : TagMatch) : Except Str (Str × List Str) :=
  match getInjectorFunc m.verb with
  | .error e => .error e
  | .ok f =>
    match f env m.src resourcePath with
    | .error e => .error e
    | .ok rd =>
      match recur rd.1 m.src with
      | .error e => .error e
      | .ok rd2 => .ok (rd2.1, rd.2 ++ rd2.2)

/-- `if (whitespace) replacement = replacement.replace(/^/gm, whitespace)`:
indent every line of the replacement when leading whitespace was captured. -/
def applyIndent (m : TagMatch) (r : Str) : Str :=
  if m.ws.isEmpty then r else indentLines m.ws r

/-- The `try`/`catch` of one loop iteration: compute the replacement (`F`);
on failure fall back to the comment-wrapped matched text (`W`), whose own
failure propagates. -/
def tagReplacement (F : TagMatch → Except Str (Str × List Str))
    (W : Str → Except Str Str) (m : TagMatch) : Except Str (Str × List Str) :=
  match F m with
  | .ok rd => .ok rd
  | .error _ =>
    match W m.tag with
    | .ok w => .ok (w, ([] : List Str))
    | .error e => .error e

/-- The `for (const match of matches)` loop of `parseAndReplace`: for each
match compute the replacement with fallback (`tagReplacement`), indent, and
splice over the first occurrence of the matched text. -/
def spliceLoopG (F : TagMatch → Except Str (Str × List Str)) (W : Str → Except Str Str) :
    List TagMatch → Str → List Str → Except Str (Str × List Str)
  | [], contents, deps => .ok (contents, deps)
  | m :: rest, contents, deps =>
    match tagReplacement F W m with
    | .error e => .error e
    | .ok rd =>
      spliceLoopG F W rest (spliceJs contents m.tag (applyIndent m rd.1)) (deps ++ rd.2)

/-- `parseAndReplace(contents, resourcePath)` of `loader.ts`.  The structure
of the source is direct: collect all matches once, then run the splice loop;
the recursion of the source (a replacement is re-parsed with the tag's `src`
as resource path) is bounded here by an explicit fuel, which no finite
execution of the original exceeds when the fuel majorizes the nesting
depth. -/
def parseAndReplace (env : Env) : Nat → Str → Str → Except Str (Str × List Str)
  | 0, _, _ => .error (S "out of fuel")
  | fuel + 1, contents, resourcePath =>
    spliceLoopG (tagAttemptG env (fun c r => parseAndReplace env fuel c r) resourcePath)
      (fun t => wrapInCommentSyntax t resourcePath)
      (matchAll contents) contents []

/-- The per-match replacement computation of one pass of `parseAndReplace`
at the given fuel, as a named function. -/
def parStep (env : Env) (fuel : Nat) (resourcePath : Str) :
    TagMatch → Except Str (Str × List Str) :=
  tagAttemptG env (fun c r => parseAndReplace env fuel c r) resourcePath

/-- Environment of the README scenario: the current directory is `/w`, and
`/src/nav.html` exists with contents `<div>Home</div>`; nothing else does. -/
def envReadme : Env :=
  { fs := fun p => if p = S "/src/nav.html" then some (S "<div>Home</div>") else none
    findFiles := fun _ _ => .error (S "no enumeration")
    cwd := S "/w" }

/-- Environment with an empty file system and failing enumeration. -/
def envEmpty : Env :=
  { fs := fun _ => none
    findFiles := fun _ _ => .error (S "no enumeration")
    cwd := S "/w" }

/-- Environment whose enumeration finds zero files: the external call
succeeds with empty stdout. -/
def envNoMatches : Env :=
  { fs := fun _ => none
    findFiles := fun _ _ => .ok []
    cwd := S "/w" }

/-- Environment whose enumeration yields exactly one path, `p1`. -/
def envOneMatch : Env :=
  { fs := fun _ => none
    findFiles := fun _ _ => .ok (S "p1")
    cwd := S "/w" }

/-- Contents of the injected file `f1` of the residual-tag scenario: two
valid inject tags side by side, quoted with different quote characters. -/
def f1content : Str :=
  (S "<webpack-inject src=") ++ [sqc, 'u', sqc] ++ (S " /><webpack-inject src=\"v\" />")

/-- Environment of the residual-tag scenario: every file read performed by
the run succeeds (`f1`, then `u` and `v` from inside it). -/
def envResidual : Env :=
  { fs := fun p =>
      if p = S "/d/x.html/f1" then some f1content
      else if p = S "/w/f1/u" then some (S "<webpack-inject src=\"")
      else if p = S "/w/f1/v" then some (S "f\" />")
      else none
    findFiles := fun _ _ => .error (S "no enumeration")
    cwd := S "/w" }

/-- Environment of the plain nested-injection scenario: `n1` holds one
valid tag injecting `n2`, which holds plain text. -/
def envNested : Env :=
  { fs := fun p =>
      if p = S "/d/y.html/n1" then some (S "<webpack-inject src=\"n2\" />")
      else if p = S "/w/n1/n2" then some (S "hello")
      else none
    findFiles := fun _ _ => .error (S "no enumeration")
    cwd := S "/w" }

/-- The single match of `<webpack-foo src="x" />`: an unknown verb. -/
def mFoo : TagMatch :=
  { ws := []
    verb := S "foo"
    quote := '"'
    src := S "x"
    tag := S "<webpack-foo src=\"x\" />"
    tagLen := 23 }

/-- The single match of `  <webpack-inject src="x" />`: two spaces of
captured leading whitespace. -/
def mIndent : TagMatch :=
  { ws := [' ', ' ']
    verb := S "inject"
    quote := '"'
    src := S "x"
    tag := S "  <webpack-inject src=\"x\" />"
    tagLen := 28 }

/-- The matched texts occur, in order and without overlap, inside the
string: the chained decomposition invariant of the splice loop. -/
def OccChain : Str → List TagMatch → Prop
  | _, [] => True
  | c, m :: ms => ∃ a b, c = a ++ m.tag ++ b ∧ OccChain b ms

/-- The splice loop with the splice made explicit: instead of the
JavaScript `indexOf`/`slice` arithmetic it replaces the first occurrence of
the matched text — returning `none` if that occurrence is missing. -/
def spliceLoopCheckedG (F : TagMatch → Except Str (Str × List Str))
    (W : Str → Except Str Str) :
    List TagMatch → Str → List Str → Option (Except Str (Str × List Str))
  | [], contents, deps => some (.ok (contents, deps))
  | m :: rest, contents, deps =>
    match tagReplacement F W m with
    | .error e => some (.error e)
    | .ok rd =>
      match indexOfFirst contents m.tag with
      | none => none
      | some p =>
        spliceLoopCheckedG F W rest
          (contents.take p ++ applyIndent m rd.1 ++ contents.drop (p + m.tag.length))
          (deps ++ rd.2)

/-- `parseAndReplace` with every top-level splice checked: identical
replacement computation, but each splice must find an occurrence of the
matched text. -/
def parseAndReplaceChecked (env : Env) :
    Nat → Str → Str → Option (Except Str (Str × List Str))
  | 0, _, _ => some (.error (S "out of fuel"))
  | fuel + 1, contents, resourcePath =>
    spliceLoopCheckedG (parStep env fuel resourcePath)
      (fun t => wrapInCommentSyntax t resourcePath)
      (matchAll contents) contents []

/-- C1: with the README layout (a tag `<webpack-inject src="./nav.html" />`
inside `/src/index.html` and the target file at `/src/nav.html`),
`getFileContents` resolves `path.resolve(resourcePath, src)` — treating the
owning FILE path as a directory — so it looks for
`/src/index.html/nav.html`, the read fails, and the pass falls back to the
comment wrapper instead of injecting the trimmed contents and registering
the dependency the claim (and the README) describe. -/
theorem getFileContents_resolves_against_resourcePath_itself :
    pathResolve envReadme.cwd (S "/src/index.html") (S "./nav.html")
      = S "/src/index.html/nav.html"
    ∧ envReadme.fs (S "/src/nav.html") = some (S "<div>Home</div>")
    ∧ parseAndReplace envReadme 3 (S "<webpack-inject src=\"./nav.html\" />")
        (S "/src/index.html")
      = .ok (S "<!-- <webpack-inject src=\"./nav.html\" /> -->", [])
    ∧ parseAndReplace envReadme 3 (S "<webpack-inject src=\"./nav.html\" />")
        (S "/src/index.html")
      ≠ .ok (S "<div>Home</div>", [S "/src/nav.html"]) := by
  refine ⟨by decide, by decide, by decide, by decide⟩

/-- C2 counterexample: a failing tag inside a `.js` resource is not replaced
by a block comment — `wrapInCommentSyntax` rejects the two-letter extension
and the whole pass throws. -/
theorem failed_tag_wrap_throws_on_two_letter_ext :
    parseAndReplace envEmpty 2 (S "<webpack-foo src=\"x\" />") (S "/a/b.js")
      = .error (S "Not a valid file path: /a/b.js") := by decide

/-- C3: when the external enumeration call finds zero files (it succeeds
with empty stdout), the import tag does NOT fail: `split('\n')` yields one
empty field, so the output is `@import "";` and no comment-wrapped fallback
appears. -/
theorem import_zero_matches_emits_empty_import :
    envNoMatches.findFiles (S "*.less") (dirname (S "/d/s.css")) = .ok []
    ∧ parseAndReplace envNoMatches 2 (S "<webpack-import src=\"*.less\" />")
        (S "/d/s.css")
      = .ok (S "@import \"\";" ++ ['\n'], [])
    ∧ parseAndReplace envNoMatches 2 (S "<webpack-import src=\"*.less\" />")
        (S "/d/s.css")
      ≠ .ok (S "/* <webpack-import src=\"*.less\" /> */", []) := by
  refine ⟨by decide, by decide, by decide⟩

/-- C4: for a `.ts` resource with one enumerated file, the emitted line uses
`@import`, not `import`: `path.extname` returns `.ts` (dot included), which
is never an element of `['js', 'ts', 'tsx', 'jsx']`. -/
theorem import_keyword_never_chosen_for_ts :
    extname (S "/d/a.ts") = S ".ts"
    ∧ importKeywordFor (S "/d/a.ts") = S "@import"
    ∧ addImportStatements envOneMatch (S "*.ts") (S "/d/a.ts")
      = .ok (S "@import \"p1\";" ++ ['\n'], [])
    ∧ addImportStatements envOneMatch (S "*.ts") (S "/d/a.ts")
      ≠ .ok (S "import \"p1\";" ++ ['\n'], []) := by
  refine ⟨by decide, by decide, by decide, by decide⟩

set_option maxHeartbeats 2000000 in
/-- C5 counterexample: a document whose only tag injects a file `f1` that
itself contains only valid tags (each is matched, each read succeeds, no
fallback is taken — the three registered dependencies witness this), yet
the final result is itself a residual `<webpack-*>` tag: the splices of the
inner pass assemble new tag text out of replacement pieces, and top-level
matches are collected only once, so it is never re-scanned. -/
theorem residual_tag_after_valid_nested_injection :
    parseAndReplace envResidual 4 (S "<webpack-inject src=\"f1\" />") (S "/d/x.html")
      = .ok (S "<webpack-inject src=\"f\" />",
             [S "/d/x.html/f1", S "/w/f1/u", S "/w/f1/v"])
    ∧ (matchAll f1content).length = 2
    ∧ matchAll (S "<webpack-inject src=\"f\" />") ≠ [] := by
  refine ⟨by decide, by decide, by decide⟩

/-- C5 (amended): the replacement of each tag is re-run through the whole
substitution pass with the tag's own `src` as the new resource path before
being spliced, so a tag nested inside an injected file is itself resolved:
here the injected file `n1` contains a valid tag and the result is the fully
resolved text, free of tags.  (By `residual_tag_after_valid_nested_injection`
this resolution does not guarantee a tag-free result in general.) -/
theorem nested_injection_resolves_recursively :
    parseAndReplace envNested 4 (S "<webpack-inject src=\"n1\" />") (S "/d/y.html")
      = .ok (S "hello", [S "/d/y.html/n1", S "/w/n1/n2"])
    ∧ matchAll (S "hello") = [] := by
  refine ⟨by decide, by decide⟩

/-- `split` never produces an empty array. -/
theorem splitOnChar_ne_nil (sep : Char) (l : Str) : splitOnChar sep l ≠ [] := by
  induction l with
  | nil => simp [splitOnChar]
  | cons c t ih =>
    simp only [splitOnChar]
    split
    · simp
    · cases h : splitOnChar sep t <;> simp

/-- The number of fields produced by `split` is the separator count plus
one; in particular it is never zero. -/
theorem splitOnChar_length (sep : Char) (l : Str) :
    (splitOnChar sep l).length = l.count sep + 1 := by
  induction l with
  | nil => simp [splitOnChar]
  | cons c t ih =>
    simp only [splitOnChar, List.count_cons]
    split
    · rename_i h
      simp [ih, h]
    · rename_i h
      cases hs : splitOnChar sep t with
      | nil => exact absurd hs (splitOnChar_ne_nil sep t)
      | cons a r =>
        rw [hs] at ih
        simp only [List.length_cons] at ih ⊢
        simp [h, ih]

/-- C9: a document in which the tag pattern does not occur is returned
unchanged by `parseAndReplace` (with no dependencies registered); in
particular re-running the pass on tag-free output is the identity. -/
theorem no_tags_identity (env : Env) (fuel : Nat) (contents resourcePath : Str)
    (h : matchAll contents = []) :
    parseAndReplace env (fuel + 1) contents resourcePath = .ok (contents, []) := by
  simp [parseAndReplace, h, spliceLoopG]

/-- C9 witness: a concrete tag-free document. -/
theorem no_tags_identity_witness :
    matchAll (S "plain text, no tags") = []
    ∧ parseAndReplace envEmpty 1 (S "plain text, no tags") (S "/a/b.css")
      = .ok (S "plain text, no tags", []) :=
  ⟨by decide, no_tags_identity envEmpty 0 (S "plain text, no tags") (S "/a/b.css") (by decide)⟩

/-- C10: whenever the external enumeration call returns a string, the import
verb splits it on newline characters and emits exactly one import
line per field — empty fields included — so the field count is the newline
count plus one and the zero-files error branch is never reached. -/
theorem import_splits_enumeration_on_newlines
    (env : Env) (patt resourcePath out : Str)
    (h : env.findFiles patt (dirname resourcePath) = .ok out) :
    addImportStatements env patt resourcePath
      = .ok (((splitOnChar '\n' out).map
               (importLine (importKeywordFor resourcePath))).flatten, [])
    ∧ (splitOnChar '\n' out).length = out.count '\n' + 1 := by
  constructor
  · simp only [addImportStatements, findMatchingFiles, h]
    have hlen := splitOnChar_length '\n' out
    have : ¬ (splitOnChar '\n' out).length = 0 := by omega
    simp [this]
  · exact splitOnChar_length '\n' out

/-- C10 witness: enumeration stdout that is completely empty yields the
single line `@import "";`. -/
theorem import_splits_enumeration_on_newlines_witness :
    envNoMatches.findFiles (S "*.less") (dirname (S "/d/s.css")) = .ok []
    ∧ (addImportStatements envNoMatches (S "*.less") (S "/d/s.css")
        = .ok (((splitOnChar '\n' []).map
                 (importLine (importKeywordFor (S "/d/s.css")))).flatten, [])
       ∧ (splitOnChar '\n' ([] : Str)).length = ([] : Str).count '\n' + 1)
    ∧ ((splitOnChar '\n' []).map
        (importLine (importKeywordFor (S "/d/s.css")))).flatten
      = S "@import \"\";" ++ ['\n'] :=
  ⟨by decide,
   import_splits_enumeration_on_newlines envNoMatches (S "*.less") (S "/d/s.css") [] (by decide),
   by decide⟩

/-- C2 (amended): when resolving a tag fails AND the resource path ends in
a 3-4 lowercase-letter extension, the tag is replaced — in place, with the
loop continuing over the remaining matches — by the matched text wrapped in
an HTML comment if that extension is `html` and in a block comment
otherwise; a resource path without such an extension instead aborts the
pass (see `wrap_failure_aborts_pass`). -/
theorem failed_tag_wrapped_when_ext_matches
    (env : Env) (fuel : Nat) (resourcePath : Str) (m : TagMatch)
    (rest : List TagMatch) (contents : Str) (deps : List Str) (ext e : Str)
    (hfail : parStep env fuel resourcePath m = .error e)
    (hext : extMatch resourcePath = some ext) :
    spliceLoopG (parStep env fuel resourcePath)
        (fun t => wrapInCommentSyntax t resourcePath) (m :: rest) contents deps
      = spliceLoopG (parStep env fuel resourcePath)
          (fun t => wrapInCommentSyntax t resourcePath) rest
          (spliceJs contents m.tag (applyIndent m
            (if ext = S "html" then S "<!-- " ++ m.tag ++ S " -->"
             else S "/* " ++ m.tag ++ S " */")))
          deps := by
  rcases eq_or_ne ext (S "html") with hh | hh
  · simp [spliceLoopG, tagReplacement, hfail, wrapInCommentSyntax, hext, hh]
  · simp [spliceLoopG, tagReplacement, hfail, wrapInCommentSyntax, hext, hh]

/-- C2 witness: a failing (unknown-verb) tag in a `.css` resource is
replaced by the block-comment copy of the tag and processing continues. -/
theorem failed_tag_wrapped_when_ext_matches_witness :
    parStep envEmpty 1 (S "/a/b.css") mFoo
      = .error (S "No such inject function found: foo")
    ∧ extMatch (S "/a/b.css") = some (S "css")
    ∧ spliceLoopG (parStep envEmpty 1 (S "/a/b.css"))
        (fun t => wrapInCommentSyntax t (S "/a/b.css")) [mFoo] mFoo.tag []
      = spliceLoopG (parStep envEmpty 1 (S "/a/b.css"))
          (fun t => wrapInCommentSyntax t (S "/a/b.css")) []
          (spliceJs mFoo.tag mFoo.tag (applyIndent mFoo
            (if S "css" = S "html" then S "<!-- " ++ mFoo.tag ++ S " -->"
             else S "/* " ++ mFoo.tag ++ S " */")))
          [] :=
  ⟨by decide, by decide,
   failed_tag_wrapped_when_ext_matches envEmpty 1 (S "/a/b.css") mFoo [] mFoo.tag []
     (S "css") (S "No such inject function found: foo") (by decide) (by decide)⟩

/-- C7: when resolving a tag fails and the resource path has no 3-4
lowercase-letter extension, the comment-wrapping fallback itself throws; the
error is raised inside the per-tag catch block, so nothing catches it: the
loop stops at that tag with the error — the remaining matches are never
processed — and the same error is the result of the whole pass. -/
theorem wrap_failure_aborts_pass
    (env : Env) (fuel : Nat) (resourcePath : Str) (m : TagMatch) (e : Str)
    (hfail : parStep env fuel resourcePath m = .error e)
    (hext : extMatch resourcePath = none) :
    (∀ rest contents deps,
      spliceLoopG (parStep env fuel resourcePath)
          (fun t => wrapInCommentSyntax t resourcePath) (m :: rest) contents deps
        = .error (S "Not a valid file path: " ++ resourcePath))
    ∧ (∀ contents rest, matchAll contents = m :: rest →
        parseAndReplace env (fuel + 1) contents resourcePath
          = .error (S "Not a valid file path: " ++ resourcePath)) := by
  have habort : ∀ rest contents deps,
      spliceLoopG (parStep env fuel resourcePath)
          (fun t => wrapInCommentSyntax t resourcePath) (m :: rest) contents deps
        = .error (S "Not a valid file path: " ++ resourcePath) := by
    intro rest contents deps
    simp only [spliceLoopG, tagReplacement, hfail, wrapInCommentSyntax, hext]
  refine ⟨habort, fun contents rest hm => ?_⟩
  simp only [parseAndReplace, hm]
  exact habort rest contents []

/-- C7 witness: an unknown-verb tag in a resource named `noext` aborts the
whole pass with the `Not a valid file path` error. -/
theorem wrap_failure_aborts_pass_witness :
    parStep envEmpty 1 (S "noext") mFoo
      = .error (S "No such inject function found: foo")
    ∧ extMatch (S "noext") = none
    ∧ ((∀ rest contents deps,
         spliceLoopG (parStep envEmpty 1 (S "noext"))
             (fun t => wrapInCommentSyntax t (S "noext")) (mFoo :: rest) contents deps
           = .error (S "Not a valid file path: noext"))
       ∧ (∀ contents rest, matchAll contents = mFoo :: rest →
           parseAndReplace envEmpty 2 contents (S "noext")
             = .error (S "Not a valid file path: noext"))) :=
  ⟨by decide, by decide,
   wrap_failure_aborts_pass envEmpty 1 (S "noext") mFoo
     (S "No such inject function found: foo") (by decide) (by decide)⟩

/-- Shape of a successful match attempt: the matched text is the slice of
the subject at the attempt position, and the captured leading whitespace
consists of tabs and spaces only (it is a prefix of a `[\t ]*` run). -/
theorem tryMatchAt_spec (s : Str) (i : Nat) (ls : Bool) (m : TagMatch)
    (h : tryMatchAt s i ls = some m) :
    m.tag = (s.drop i).take m.tagLen ∧ m.ws.all isTabSpace = true := by
  simp only [tryMatchAt] at h
  repeat' split at h
  all_goals
    first
      | exact Option.noConfusion h
      | (have hm := Option.some.inj h; subst hm; refine ⟨rfl, ?_⟩)
  all_goals
    first
      | (rw [← List.prefix_iff_eq_take.mp (List.takeWhile_prefix isTabSpace)]
         exact List.all_takeWhile)
      | simp

/-- Every reported match arises from a successful attempt at some
position. -/
theorem matchAllAux_mem (s : Str) :
    ∀ fuel i m, m ∈ matchAllAux s fuel i → ∃ j ls, tryMatchAt s j ls = some m := by
  intro fuel
  induction fuel with
  | zero => intro i m hm; simp [matchAllAux] at hm
  | succ fuel ih =>
    intro i m hm
    simp only [matchAllAux] at hm
    split at hm
    · simp at hm
    · split at hm
      · rename_i m0 hm0
        rcases List.mem_cons.mp hm with rfl | hm'
        · exact ⟨i, lineStartAt s i, hm0⟩
        · exact ih _ m hm'
      · exact ih _ m hm

/-- The captured leading whitespace of any match consists of tabs and
spaces only. -/
theorem matchAll_ws_tabSpace (s : Str) (m : TagMatch) (hm : m ∈ matchAll s) :
    m.ws.all isTabSpace = true := by
  obtain ⟨j, ls, hj⟩ := matchAllAux_mem s (s.length + 1) 0 m hm
  exact (tryMatchAt_spec s j ls m hj).2

/-- `linesOf` never returns an empty list of lines. -/
theorem linesOf_ne_nil (s : Str) : linesOf s ≠ [] := by
  cases s with
  | nil => simp [linesOf]
  | cons c t =>
    simp only [linesOf]
    split
    · simp
    · cases h : linesOf t <;> simp

/-- A tab or space is not a LineTerminator. -/
theorem isTabSpace_not_lineTerm (c : Char) (h : isTabSpace c = true) :
    isLineTerm c = false := by
  simp only [isTabSpace, Bool.or_eq_true, beq_iff_eq] at h
  rcases h with rfl | rfl <;> decide

/-- Prepending terminator-free text only extends the first line. -/
theorem linesOf_append_noterm :
    ∀ ws : Str, ws.all (fun c => !isLineTerm c) = true →
    ∀ l, linesOf (ws ++ l) = (linesOf l).modifyHead (fun x => ws ++ x) := by
  intro ws
  induction ws with
  | nil =>
    intro _ l
    cases h : linesOf l with
    | nil => exact absurd h (linesOf_ne_nil l)
    | cons a r => simp [h]
  | cons c w ih =>
    intro hws l
    simp only [List.all_cons, Bool.and_eq_true, Bool.not_eq_true'] at hws
    simp only [List.cons_append, linesOf, hws.1, Bool.false_eq_true, if_false,
      List.append_eq]
    rw [ih hws.2 l]
    cases h : linesOf l with
    | nil => exact absurd h (linesOf_ne_nil l)
    | cons a r => simp [h]

/-- `indentGo` inserts the whitespace after every terminator, so it maps
every line but the first through prepending `ws`. -/
theorem indentGo_linesOf (ws : Str) (hws : ws.all (fun c => !isLineTerm c) = true) :
    ∀ s a r, linesOf s = a :: r →
      linesOf (indentGo ws s) = a :: r.map (fun x => ws ++ x) := by
  intro s
  induction s with
  | nil =>
    intro a r h
    simp only [linesOf] at h
    cases h
    simp [indentGo, linesOf]
  | cons c t ih =>
    intro a r h
    simp only [linesOf] at h
    by_cases hc : isLineTerm c = true
    · rw [if_pos hc] at h
      cases ht : linesOf t with
      | nil => exact absurd ht (linesOf_ne_nil t)
      | cons a2 r2 =>
        have hgo := ih a2 r2 ht
        rw [ht] at h
        cases h
        simp only [indentGo, hc, if_pos, linesOf]
        rw [linesOf_append_noterm ws hws (indentGo ws t), hgo]
        simp
    · rw [if_neg hc] at h
      cases ht : linesOf t with
      | nil => exact absurd ht (linesOf_ne_nil t)
      | cons a2 r2 =>
        have hgo := ih a2 r2 ht
        rw [ht] at h
        cases h
        simp only [indentGo, hc, Bool.false_eq_true, if_false, linesOf]
        rw [hgo]

/-- `replacement.replace(/^/gm, ws)` with terminator-free `ws` prefixes
every line with `ws`. -/
theorem indentLines_linesOf (ws : Str) (hws : ws.all (fun c => !isLineTerm c) = true)
    (r : Str) : linesOf (indentLines ws r) = (linesOf r).map (fun x => ws ++ x) := by
  cases h : linesOf r with
  | nil => exact absurd h (linesOf_ne_nil r)
  | cons a rr =>
    unfold indentLines
    rw [linesOf_append_noterm ws hws, indentGo_linesOf ws hws r a rr h]
    simp

/-- C8: for any match of the document, if the tag carried captured leading
whitespace then every line of the replacement spliced by the loop (the
result of `applyIndent`) is prefixed by exactly that whitespace, and a
match without leading whitespace leaves the replacement untouched. -/
theorem leading_whitespace_indents_every_line
    (s : Str) (m : TagMatch) (r : Str) (hm : m ∈ matchAll s) :
    (m.ws = [] → applyIndent m r = r)
    ∧ (m.ws ≠ [] →
        linesOf (applyIndent m r) = (linesOf r).map (fun x => m.ws ++ x)) := by
  have hws := matchAll_ws_tabSpace s m hm
  have hnoterm : m.ws.all (fun c => !isLineTerm c) = true := by
    rw [List.all_eq_true] at hws ⊢
    intro x hx
    simp [isTabSpace_not_lineTerm x (hws x hx)]
  constructor
  · intro he
    simp [applyIndent, he]
  · intro hne
    have : m.ws.isEmpty = false := by
      cases hws2 : m.ws with
      | nil => exact absurd hws2 hne
      | cons a b => simp
    simp only [applyIndent, this, Bool.false_eq_true, if_neg, ite_false]
    exact indentLines_linesOf m.ws hnoterm r

/-- C8 witness: the two-space indentation of a concrete match prefixes both
lines of a two-line replacement. -/
theorem leading_whitespace_indents_every_line_witness :
    mIndent ∈ matchAll (S "  <webpack-inject src=\"x\" />")
    ∧ ((mIndent.ws = [] → applyIndent mIndent (S "a" ++ '\n' :: S "b") = S "a" ++ '\n' :: S "b")
       ∧ (mIndent.ws ≠ [] →
           linesOf (applyIndent mIndent (S "a" ++ '\n' :: S "b"))
             = (linesOf (S "a" ++ '\n' :: S "b")).map (fun x => mIndent.ws ++ x)))
    ∧ applyIndent mIndent (S "a" ++ '\n' :: S "b") = S "  a" ++ '\n' :: S "  b" :=
  ⟨by decide,
   leading_whitespace_indents_every_line (S "  <webpack-inject src=\"x\" />") mIndent
     (S "a" ++ '\n' :: S "b") (by decide),
   by decide⟩

/-- An occurrence chain survives prepending arbitrary text. -/
theorem OccChain_extend (x b : Str) (ms : List TagMatch) (h : OccChain b ms) :
    OccChain (x ++ b) ms := by
  cases ms with
  | nil => trivial
  | cons m rest =>
    obtain ⟨a, b2, hb, hrest⟩ := h
    exact ⟨x ++ a, b2, by rw [hb]; simp, hrest⟩

/-- The matches reported by the scan occur in order, without overlap, in
the scanned suffix. -/
theorem matchAllAux_occChain (s : Str) :
    ∀ fuel i, OccChain (s.drop i) (matchAllAux s fuel i) := by
  intro fuel
  induction fuel with
  | zero => intro i; simp [matchAllAux, OccChain]
  | succ fuel ih =>
    intro i
    simp only [matchAllAux]
    split
    · trivial
    · rename_i hlen
      split
      · rename_i m hm
        have htag := (tryMatchAt_spec s i (lineStartAt s i) m hm).1
        refine ⟨[], s.drop (i + m.tagLen), ?_, ?_⟩
        · rw [List.nil_append, htag, ← List.drop_drop]
          exact (List.take_append_drop m.tagLen (s.drop i)).symm
        · rcases Nat.eq_zero_or_pos m.tagLen with hz | hpos
          · have h1 : i + max m.tagLen 1 = i + 1 := by simp [hz]
            have hz2 : i + m.tagLen = i := by omega
            rw [hz2, h1]
            have hlt : i < s.length := by omega
            rw [List.drop_eq_getElem_cons hlt]
            have h3 := OccChain_extend [s[i]] (s.drop (i + 1)) _ (ih (i + 1))
            simpa using h3
          · have h1 : i + max m.tagLen 1 = i + m.tagLen := by
              rw [Nat.max_eq_left hpos]
            rw [h1]
            exact ih _
      · have hlt : i < s.length := by omega
        rw [List.drop_eq_getElem_cons hlt]
        exact OccChain_extend [s[i]] (s.drop (i + 1)) _ (ih (i + 1))

/-- The matches of a document occur in order, without overlap, in it. -/
theorem matchAll_occChain (s : Str) : OccChain s (matchAll s) := by
  have := matchAllAux_occChain s (s.length + 1) 0
  rwa [List.drop_zero] at this

/-- Unfolding rule of `indexOfFirst` when the tag is a prefix. -/
theorem indexOfFirst_pos (c t : Str) (h : t.isPrefixOf c = true) :
    indexOfFirst c t = some 0 := by
  cases c <;> simp [indexOfFirst, h]

/-- Unfolding rule of `indexOfFirst` when the tag is not a prefix. -/
theorem indexOfFirst_neg (x : Char) (c t : Str)
    (h : t.isPrefixOf (x :: c) = false) :
    indexOfFirst (x :: c) t = (indexOfFirst c t).map Nat.succ := by
  simp [indexOfFirst, h]

/-- A string that occurs has a first occurrence, no later than any given
occurrence. -/
theorem indexOfFirst_append :
    ∀ (a t b : Str), ∃ p, indexOfFirst (a ++ t ++ b) t = some p ∧ p ≤ a.length := by
  intro a
  induction a with
  | nil =>
    intro t b
    refine ⟨0, ?_, Nat.le_refl 0⟩
    exact indexOfFirst_pos (t ++ b) t
      (List.isPrefixOf_iff_prefix.mpr (List.prefix_append t b))
  | cons x a2 ih =>
    intro t b
    obtain ⟨p2, hp2, hle⟩ := ih t b
    by_cases hpre : t.isPrefixOf (x :: (a2 ++ t ++ b)) = true
    · exact ⟨0, indexOfFirst_pos _ t (by simpa using hpre), Nat.zero_le _⟩
    · refine ⟨p2 + 1, ?_, by simpa using Nat.succ_le_succ hle⟩
      have hpre' : t.isPrefixOf (x :: (a2 ++ t ++ b)) = false := by
        rwa [Bool.not_eq_true] at hpre
      simp only [List.cons_append]
      rw [indexOfFirst_neg x _ t hpre', hp2]
      rfl

/-- Taking up to `min k length` is taking up to `k`. -/
theorem take_min_len (l : Str) (k : Nat) : l.take (min k l.length) = l.take k := by
  rcases Nat.le_total k l.length with h | h
  · rw [Nat.min_eq_left h]
  · rw [Nat.min_eq_right h, List.take_of_length_le h,
      List.take_of_length_le (Nat.le_refl _)]

/-- Dropping from `min k length` is dropping from `k`. -/
theorem drop_min_len (l : Str) (k : Nat) : l.drop (min k l.length) = l.drop k := by
  rcases Nat.le_total k l.length with h | h
  · rw [Nat.min_eq_left h]
  · rw [Nat.min_eq_right h, List.drop_eq_nil_of_le h,
      List.drop_eq_nil_of_le (Nat.le_refl _)]

/-- When the tag occurs, the `indexOf`/`slice` splice of the source is the
replacement of the first occurrence of the tag. -/
theorem spliceJs_of_indexOf (c t r : Str) (p : Nat)
    (h : indexOfFirst c t = some p) :
    spliceJs c t r = c.take p ++ r ++ c.drop (p + t.length) := by
  have hidx : jsIndexOf c t = (p : Int) := by
    unfold jsIndexOf
    rw [h]
    rfl
  have e1 : jsSliceIdx c.length 0 = 0 := by simp [jsSliceIdx]
  have e2 : jsSliceIdx c.length (p : Int) = min p c.length := by
    unfold jsSliceIdx
    rw [if_neg (by omega)]
    omega
  have e3 : jsSliceIdx c.length ((p : Int) + (t.length : Int))
      = min (p + t.length) c.length := by
    unfold jsSliceIdx
    rw [if_neg (by omega)]
    omega
  simp only [spliceJs, jsSliceTwo, jsSliceFrom, hidx, e1, e2, e3, List.drop_zero,
    take_min_len, drop_min_len]

/-- On a match list that forms an occurrence chain, the splice loop never
misses: it behaves exactly like the checked loop that replaces the first
occurrence of each matched text. -/
theorem spliceLoopCheckedG_eq (F : TagMatch → Except Str (Str × List Str))
    (W : Str → Except Str Str) :
    ∀ ms c deps, OccChain c ms →
      spliceLoopCheckedG F W ms c deps = some (spliceLoopG F W ms c deps) := by
  intro ms
  induction ms with
  | nil => intro c deps _; rfl
  | cons m rest ih =>
    intro c deps hocc
    obtain ⟨a, b, hc, hrest⟩ := hocc
    obtain ⟨p, hp0, hple⟩ := indexOfFirst_append a m.tag b
    rw [← hc] at hp0
    simp only [spliceLoopG, spliceLoopCheckedG]
    cases hX : tagReplacement F W m with
    | error e => rfl
    | ok rd =>
      simp only [hp0]
      rw [spliceJs_of_indexOf c m.tag (applyIndent m rd.1) p hp0]
      apply ih
      have hc' : c = (a ++ m.tag) ++ b := by rw [hc, List.append_assoc]
      have hlen : p + m.tag.length ≤ (a ++ m.tag).length := by
        rw [List.length_append]
        omega
      have hd : c.drop (p + m.tag.length)
          = (a ++ m.tag).drop (p + m.tag.length) ++ b := by
        rw [hc', List.drop_append_eq_append_drop,
          Nat.sub_eq_zero_of_le hlen, List.drop_zero]
      rw [hd]
      exact OccChain_extend (c.take p ++ applyIndent m rd.1) _ rest
        (OccChain_extend ((a ++ m.tag).drop (p + m.tag.length)) b rest hrest)

/-- C6: every splice of every pass is well-defined — `indexOf` always finds
an occurrence of the matched text at splice time, and the slice-based
splice then replaces exactly the first remaining occurrence of the original
matched text with the (indented) replacement, leaving every other character
unchanged.  Formally, `parseAndReplace` coincides with its checked variant,
which errors out (`none`) on a missing occurrence and splices by explicit
first-occurrence replacement. -/
theorem splice_always_finds_occurrence (env : Env)
    (fuel : Nat) (contents resourcePath : Str) :
    parseAndReplaceChecked env fuel contents resourcePath
      = some (parseAndReplace env fuel contents resourcePath) := by
  cases fuel with
  | zero => rfl
  | succ fuel =>
    simp only [parseAndReplaceChecked, parseAndReplace, parStep]
    exact spliceLoopCheckedG_eq _ _ (matchAll contents) contents []
      (matchAll_occChain contents)
